import Mathlib

/-!
Shallow embedding of `rep_manager/main.py`: the change-detection and
versioned-packaging workflow (`calculate_file_hash`, `analyze_application`,
`get_or_create_app`, `update_app_status`, `get_file_hashes`,
`update_file_hashes`, `package_application`, `generate_deployment_plan`,
`process_application`, and the per-application loop of `main`).

Modelling conventions:
* A directory tree is an `FSTree`: a list of regular files (name, byte
  content) and a list of subdirectories.  Byte content is `List Nat`.
* `hashlib.sha256` digests are abstracted by the `hashFn : List Nat → String`
  field of `Env`; every claim here depends only on the digest being a
  deterministic function of the byte content, exactly as the source streams
  the file through the hash, never on the concrete SHA-256 value.
* Python `dict`s are association lists; Python's `==` on dicts is
  extensional equality of the key→value mappings, embedded as `pyDictEq`.
* `pathlib`'s `str(path)` joins path parts with the host separator
  (`os.sep`), carried in `Env.sep`; `CURRENT_TIMESTAMP` is `Env.now`.
* The SQLite tables become the `DB` structure; `conn.commit()` points are
  where the returned `DB` value is threaded onward, so effects committed
  before an exception survive it (exceptions are `PyError` values in the
  `err` field of a run's result, uncaught unless the source catches them).
-/

/-- A directory tree: regular files (name, byte content) and subdirectories.
Models the filesystem subtree rooted at an application's source directory. -/
inductive FSTree where
  | mk : List (String × List Nat) → List (String × FSTree) → FSTree

/-- The regular files directly inside a directory. -/
def FSTree.files : FSTree → List (String × List Nat)
  | .mk fs _ => fs

/-- The immediate subdirectories of a directory. -/
def FSTree.dirs : FSTree → List (String × FSTree)
  | .mk _ ds => ds

/-- Association-list lookup, the embedding of Python `d[k]` / `d.get(k)`:
first binding wins (Python dicts cannot hold a key twice). -/
def assocGet {β : Type} (k : String) : List (String × β) → Option β
  | [] => none
  | (a, b) :: es => if k = a then some b else assocGet k es

/-- Python `d1 == d2` on dicts: the two key→value mappings agree on every
key.  It suffices to check every key occurring in either dict, which keeps
the test executable. -/
def pyDictEq (d1 d2 : List (String × String)) : Bool :=
  (d1.map Prod.fst ++ d2.map Prod.fst).all
    (fun k => decide (assocGet k d1 = assocGet k d2))

mutual
/-- The `os.walk` traversal inside `analyze_application`, accumulating the
relative-path parts of every regular file below the root: the files of the
current directory first, then each subdirectory in order, exactly as
top-down `os.walk` visits them.  `pre` is the list of directory names from
the root down to the current directory (the parts of
`file_path.relative_to(source_dir)` minus the file name). -/
def walkParts (pre : List String) : FSTree → List (List String × List Nat)
  | .mk files dirs =>
      files.map (fun fc => (pre ++ [fc.1], fc.2)) ++ walkPartsList pre dirs

/-- Traversal of a list of subdirectories, in order. -/
def walkPartsList (pre : List String) : List (String × FSTree) → List (List String × List Nat)
  | [] => []
  | (n, t) :: rest => walkParts (pre ++ [n]) t ++ walkPartsList pre rest
end

/-- Path resolution in a tree: `findFile t parts = some c` when following
the directory names in `parts` from `t` reaches a regular file with byte
content `c`.  The empty path is the root directory itself, never a file. -/
def findFile : FSTree → List String → Option (List Nat)
  | t, [] => (fun _ => none) t
  | t, [n] => assocGet n t.files
  | t, n :: rest =>
      match assocGet n t.dirs with
      | some t2 => findFile t2 rest
      | none => none

mutual
/-- Sibling names are distinct, recursively (true of any real directory:
a directory cannot hold two entries with the same name). -/
def wfTree : FSTree → Bool
  | .mk files dirs =>
      decide ((files.map Prod.fst ++ dirs.map Prod.fst).Nodup) &&
      wfDirs dirs

/-- `wfTree` for every subdirectory in a list. -/
def wfDirs : List (String × FSTree) → Bool
  | [] => true
  | (_, t) :: rest => wfTree t && wfDirs rest
end

/-- Host environment and configuration threaded through the workflow:
the digest function (`hashlib.sha256`, abstracted), the host path separator
used by `str(Path)`, the clock (`CURRENT_TIMESTAMP`), and the configured
output, temporary-staging and deployment-plan directories. -/
structure Env where
  hashFn : List Nat → String
  sep : String
  now : Nat
  output_dir : String
  temp_dir : String
  plans_dir : String

/-- The `current_hashes` dict built by `analyze_application`:
`os.walk` over the source directory, hashing every regular file and keying
it by `str(file_path.relative_to(source_dir))`, whose parts are joined with
the host separator.  `os.walk` over a missing directory yields nothing,
hence the `none` case. -/
def tree_fingerprint (env : Env) : Option FSTree → List (String × String)
  | none => []
  | some t => (walkParts [] t).map
      (fun pc => (String.intercalate env.sep pc.1, env.hashFn pc.2))

/-- A row of the `applications` table. -/
structure AppRow where
  id : Nat
  app_name : String
  version : Nat
  status : String
  last_updated : Nat
  package_path : Option String
  context_notes : Option String
deriving DecidableEq

/-- The SQLite database: the `applications` table, the `file_hashes` table
(rows `(app_id, file_path, file_hash)`), and the next AUTOINCREMENT id for
`applications`. -/
structure DB where
  apps : List AppRow
  file_hashes : List (Nat × String × String)
  nextId : Nat
deriving DecidableEq

/-- `SELECT ... FROM applications WHERE app_name = ?`. -/
def findApp (name : String) (db : DB) : Option AppRow :=
  db.apps.find? (fun r => r.app_name == name)

/-- `get_or_create_app`: fetch the row for `app_name`, or insert a fresh
one (column defaults: version 1, status `new`, `last_updated`
CURRENT_TIMESTAMP, NULL package path), returning `(id, version, status)`
together with the database after the optional insert. -/
def get_or_create_app (app_name : String) (now : Nat) (db : DB) :
    (Nat × Nat × String) × DB :=
  match findApp app_name db with
  | some r => ((r.id, r.version, r.status), db)
  | none =>
      let row : AppRow :=
        { id := db.nextId, app_name := app_name, version := 1, status := "new",
          last_updated := now, package_path := none, context_notes := none }
      ((db.nextId, 1, "new"),
       { db with apps := db.apps ++ [row], nextId := db.nextId + 1 })

/-- `update_app_status`: Python tests the optional argument with
`if version:` — which is falsy both for `None` and for `0` — so a version
of `some 0` behaves like an omitted version.  Both UPDATE statements set
`last_updated = CURRENT_TIMESTAMP` on the row whose id matches. -/
def update_app_status (app_id : Nat) (status : String) (version : Option Nat)
    (now : Nat) (db : DB) : DB :=
  match version with
  | some v =>
      if v = 0 then
        { db with apps := db.apps.map (fun r =>
            if r.id = app_id then
              { r with status := status, last_updated := now }
            else r) }
      else
        { db with apps := db.apps.map (fun r =>
            if r.id = app_id then
              { r with status := status, version := v, last_updated := now }
            else r) }
  | none =>
      { db with apps := db.apps.map (fun r =>
          if r.id = app_id then
            { r with status := status, last_updated := now }
          else r) }

/-- `get_file_hashes`: the stored fingerprint of an application, as the
dict `{file_path: file_hash}` built from its `file_hashes` rows. -/
def get_file_hashes (app_id : Nat) (db : DB) : List (String × String) :=
  (db.file_hashes.filter (fun e => decide (e.1 = app_id))).map
    (fun e => (e.2.1, e.2.2))

/-- `update_file_hashes`: DELETE every `file_hashes` row of the application,
then INSERT one row per entry of the new fingerprint, in dict order. -/
def update_file_hashes (app_id : Nat) (hashes : List (String × String))
    (db : DB) : DB :=
  { db with file_hashes :=
      db.file_hashes.filter (fun e => decide (¬ e.1 = app_id)) ++
      hashes.map (fun h => (app_id, h.1, h.2)) }

/-- `analyze_application`: fingerprint the source tree, compare with the
stored fingerprint using Python dict `!=`; on inequality store the fresh
fingerprint and return `True`, else return `False`.  The returned database
reflects the committed `file_hashes` replacement. -/
def analyze_application (env : Env) (app_id : Nat) (source : Option FSTree)
    (db : DB) : Bool × DB :=
  let current := tree_fingerprint env source
  let stored := get_file_hashes app_id db
  if !(pyDictEq current stored) then
    (true, update_file_hashes app_id current db)
  else
    (false, db)

/-- Python exceptions raised by the workflow: `FileNotFoundError` from
`shutil.copytree` when the source directory is missing, and `OSError`
(disk full, permissions) from archive creation. -/
inductive PyError where
  | fileNotFound
  | osError
deriving DecidableEq

/-- A produced `.tar.gz` archive, as `package_application` builds it:
its file name, full output path, the compression mode string passed to
`tarfile.open`, the path handed to `tar.add` (the staged copy inside the
temporary directory, never the live source), the `arcname` under which that
directory is stored, and the archived tree (the staged snapshot). -/
structure Archive where
  name : String
  archive_path : String
  mode : String
  added_path : String
  arcname : String
  contents : FSTree

/-- Extraction semantics of an archive produced by
`tar.add(dir, arcname)`: a single top-level directory named `arcname`
holding the archived tree. -/
def Archive.extract (a : Archive) : List (String × FSTree) :=
  [(a.arcname, a.contents)]

/-- The local `archive_name` of `package_application`:
`f"{app_name}_v{version}.tar.gz"`. -/
def archiveName (app_name : String) (version : Nat) : String :=
  app_name ++ "_v" ++ toString version ++ ".tar.gz"

/-- The local `archive_path` of `package_application`:
`output_dir / archive_name`. -/
def archivePath (output_dir app_name : String) (version : Nat) : String :=
  output_dir ++ "/" ++ archiveName app_name version

/-- `package_application`: stage `shutil.copytree(source_dir, temp/app_name)`
(raising `FileNotFoundError` when the source directory is missing), create
`{app_name}_v{version}.tar.gz` in the output directory via
`tarfile.open(..., "w:gz")` and `tar.add(temp/app_name, arcname=app_name)`
(raising `OSError` when the disk write fails, before any database write),
then UPDATE the row's `package_path` and set `status = 'packaged'` —
an UPDATE that does not touch `last_updated`. -/
def package_application (app_id version : Nat) (app_name : String)
    (source : Option FSTree) (output_dir temp_dir : String) (disk_ok : Bool)
    (db : DB) : Except PyError (Archive × DB) :=
  let archive_name := archiveName app_name version
  let archive_path := output_dir ++ "/" ++ archive_name
  match source with
  | none => .error .fileNotFound
  | some t =>
      if disk_ok then
        let ar : Archive :=
          { name := archive_name, archive_path := archive_path,
            mode := "w:gz", added_path := temp_dir ++ "/" ++ app_name,
            arcname := app_name, contents := t }
        let db' : DB :=
          { db with apps := db.apps.map (fun r =>
              if r.id = app_id then
                { r with package_path := some archive_path,
                         status := "packaged" }
              else r) }
        .ok (ar, db')
      else
        .error .osError

/-- `generate_deployment_plan`: the path of the Markdown plan it writes,
`{plans_dir}/{app_name}_v{version}_deployment_plan.md`. -/
def generate_deployment_plan (app_name : String) (version : Nat)
    (plans_dir : String) : String :=
  plans_dir ++ "/" ++ app_name ++ "_v" ++ toString version ++
    "_deployment_plan.md"

/-- Outcome of one `process_application` call: the database as committed so
far, the archives and plan files produced, the exception that escaped (if
any — `process_application` catches nothing), and the value
`analyze_application` returned for this run. -/
structure RunResult where
  db : DB
  archives : List Archive
  plans : List String
  err : Option PyError
  changed : Bool

/-- `process_application`: get-or-create the row, analyze for changes, then
— new application: mark `analyzed` keeping its version and package it;
changed application: bump the version by 1, mark `analyzed`, package;
otherwise: skip packaging entirely. -/
def process_application (env : Env) (app_name : String)
    (source : Option FSTree) (disk_ok : Bool) (db : DB) : RunResult :=
  let gres := get_or_create_app app_name env.now db
  let app_id := gres.1.1
  let version := gres.1.2.1
  let status := gres.1.2.2
  let ares := analyze_application env app_id source gres.2
  let has_changed := ares.1
  let db1 := ares.2
  if status = "new" then
    let db2 := update_app_status app_id "analyzed" (some version) env.now db1
    match package_application app_id version app_name source env.output_dir
        env.temp_dir disk_ok db2 with
    | .error e =>
        { db := db2, archives := [], plans := [], err := some e,
          changed := has_changed }
    | .ok (ar, db3) =>
        { db := db3, archives := [ar],
          plans := [generate_deployment_plan app_name version env.plans_dir],
          err := none, changed := has_changed }
  else if has_changed then
    let v2 := version + 1
    let db2 := update_app_status app_id "analyzed" (some v2) env.now db1
    match package_application app_id v2 app_name source env.output_dir
        env.temp_dir disk_ok db2 with
    | .error e =>
        { db := db2, archives := [], plans := [], err := some e,
          changed := has_changed }
    | .ok (ar, db3) =>
        { db := db3, archives := [ar],
          plans := [generate_deployment_plan app_name v2 env.plans_dir],
          err := none, changed := has_changed }
  else
    { db := db1, archives := [], plans := [], err := none,
      changed := has_changed }

/-- Outcome of the per-application loop in `main`. -/
structure LoopResult where
  db : DB
  archives : List Archive
  plans : List String
  err : Option PyError

/-- The loop of `main` over the discovered application directories:
`process_application` for each in turn, with no `try`/`except` around the
call, so the first escaping exception aborts the whole loop.  Each entry
carries the application name, its source tree at processing time (`none`
when the directory is gone), and whether archive writes succeed for it. -/
def run_apps (env : Env) (apps : List (String × Option FSTree × Bool))
    (db : DB) : LoopResult :=
  match apps with
  | [] => { db := db, archives := [], plans := [], err := none }
  | (name, src, disk) :: rest =>
      let r := process_application env name src disk db
      match r.err with
      | some e =>
          { db := r.db, archives := r.archives, plans := r.plans,
            err := some e }
      | none =>
          let r2 := run_apps env rest r.db
          { db := r2.db, archives := r.archives ++ r2.archives,
            plans := r.plans ++ r2.plans, err := r2.err }

/-- A sequence of separate tool invocations processing the same application
(each with the source tree and disk condition of that moment): the final
database together with the number of runs whose analysis detected a change. -/
def runSeq (env : Env) (name : String)
    (steps : List (Option FSTree × Bool)) (db : DB) : DB × Nat :=
  match steps with
  | [] => (db, 0)
  | (src, disk) :: rest =>
      let r := process_application env name src disk db
      let rec2 := runSeq env name rest r.db
      (rec2.1, (if r.changed then 1 else 0) + rec2.2)

/-- The stored version of an application, read back by name. -/
def appVersion (name : String) (db : DB) : Option Nat :=
  (findApp name db).map (fun r => r.version)

/-- The stored status of an application, read back by name. -/
def appStatus (name : String) (db : DB) : Option String :=
  (findApp name db).map (fun r => r.status)

/-- The stored `last_updated` of an application, read back by name. -/
def appLastUpdated (name : String) (db : DB) : Option Nat :=
  (findApp name db).map (fun r => r.last_updated)

/-- The fresh row inserted by `get_or_create_app` for `name`. -/
def freshRow (name : String) (now : Nat) (db : DB) : AppRow :=
  { id := db.nextId, app_name := name, version := 1, status := "new",
    last_updated := now, package_path := none, context_notes := none }

/-- The database after `get_or_create_app` inserts a fresh row. -/
def insertApp (name : String) (now : Nat) (db : DB) : DB :=
  { db with
    apps := db.apps ++ [freshRow name now db],
    nextId := db.nextId + 1 }

/-! ## Concrete fixtures used to instantiate the theorems -/

/-- A concrete stand-in for the SHA-256 digest function in the concrete
instances below (any deterministic function of the bytes will do). -/
def hashDemo (c : List Nat) : String := toString c

/-- A concrete POSIX host environment. -/
def envDemo : Env :=
  { hashFn := hashDemo, sep := "/", now := 7, output_dir := "out",
    temp_dir := "tmp", plans_dir := "plans" }

/-- The empty database produced by `init_db` on a fresh store. -/
def dbEmpty : DB := { apps := [], file_hashes := [], nextId := 1 }

/-- Source tree with `a.txt`("h") and `b.txt`("w"). -/
def treeA : FSTree := .mk [("a.txt", [104]), ("b.txt", [119])] []

/-- `treeA` with the content of `a.txt` modified. -/
def treeB : FSTree := .mk [("a.txt", [105]), ("b.txt", [119])] []

/-- A tree with a nested directory: `a.txt` and `sub/b.txt`. -/
def treeNested : FSTree :=
  .mk [("a.txt", [1])] [("sub", .mk [("b.txt", [98])] [])]

/-- The database after a first full run packaging `foo` from `treeA`. -/
def dbDemo1 : DB :=
  (process_application envDemo "foo" (some treeA) true dbEmpty).db

/-- The row of `foo` in `dbDemo1`. -/
def rowDemo1 : AppRow :=
  { id := 1, app_name := "foo", version := 1, status := "packaged",
    last_updated := 7, package_path := some (archivePath "out" "foo" 1),
    context_notes := none }

/-- Three further runs: two with modified content, one back to `treeA`. -/
def stepsDemo : List (Option FSTree × Bool) :=
  [(some treeB, true), (some treeB, true), (some treeA, true)]

/-- The same host as `envDemo` but with the Windows path separator, as
`str(Path)` would produce there. -/
def envWin : Env := { envDemo with sep := "\\" }

/-- An application row in state `analyzed` with a known timestamp. -/
def rowC5 : AppRow :=
  { id := 1, app_name := "app", version := 1, status := "analyzed",
    last_updated := 5, package_path := none, context_notes := none }

/-- A store holding only `rowC5`. -/
def dbC5 : DB := { apps := [rowC5], file_hashes := [], nextId := 2 }

/-- The store after `package_application` succeeds on `dbC5`. -/
def dbC5after : DB :=
  match package_application 1 1 "app" (some treeA) "out" "tmp" true dbC5 with
  | .ok p => p.2
  | .error _ => dbC5

/-! ## Association-list and dict-equality lemmas -/

theorem assocGet_mem {β : Type} {k : String} {v : β} :
    ∀ {d : List (String × β)}, assocGet k d = some v → (k, v) ∈ d := by
  intro d
  induction d with
  | nil => intro h; simp [assocGet] at h
  | cons a es ih =>
      intro h
      rw [show a = (a.1, a.2) from rfl, assocGet] at h
      by_cases hk : k = a.1
      · simp [hk] at h
        subst hk h
        exact List.mem_cons_self _ _
      · simp [hk] at h
        exact List.mem_cons_of_mem _ (ih h)

theorem assocGet_mem_keys {β : Type} {d : List (String × β)} {k : String}
    {v : β} (h : assocGet k d = some v) : k ∈ d.map Prod.fst :=
  List.mem_map.mpr ⟨(k, v), assocGet_mem h, rfl⟩

theorem assocGet_eq_none {β : Type} {d : List (String × β)} {k : String}
    (h : k ∉ d.map Prod.fst) : assocGet k d = none := by
  induction d with
  | nil => rfl
  | cons a es ih =>
      simp only [List.map_cons, List.mem_cons] at h
      push_neg at h
      rw [show a = (a.1, a.2) from rfl, assocGet]
      simp only [h.1, if_false]
      exact ih h.2

theorem assocGet_of_mem_nodup {β : Type} {d : List (String × β)} {k : String}
    {v : β} (hmem : (k, v) ∈ d) (hnd : (d.map Prod.fst).Nodup) :
    assocGet k d = some v := by
  induction d with
  | nil => cases hmem
  | cons a es ih =>
      simp only [List.map_cons, List.nodup_cons] at hnd
      rcases List.mem_cons.mp hmem with h | h
      · subst h; simp [assocGet]
      · rw [show a = (a.1, a.2) from rfl, assocGet]
        have hk : ¬ k = a.1 := fun hk =>
          hnd.1 (hk ▸ List.mem_map.mpr ⟨(k, v), h, rfl⟩)
        simp only [hk, if_false]
        exact ih h hnd.2

/-- `pyDictEq` is exactly extensional equality of the two mappings. -/
theorem pyDictEq_iff {d1 d2 : List (String × String)} :
    pyDictEq d1 d2 = true ↔ ∀ k, assocGet k d1 = assocGet k d2 := by
  constructor
  · intro h k
    rw [pyDictEq, List.all_eq_true] at h
    by_cases h1 : k ∈ d1.map Prod.fst
    · exact of_decide_eq_true (h k (List.mem_append.mpr (Or.inl h1)))
    · by_cases h2 : k ∈ d2.map Prod.fst
      · exact of_decide_eq_true (h k (List.mem_append.mpr (Or.inr h2)))
      · rw [assocGet_eq_none h1, assocGet_eq_none h2]
  · intro h
    rw [pyDictEq, List.all_eq_true]
    intro k _
    exact decide_eq_true (h k)

theorem pyDictEq_refl (d : List (String × String)) : pyDictEq d d = true :=
  pyDictEq_iff.mpr (fun _ => rfl)

/-! ## Tracking the application row through the database operations -/

theorem find?_map_name (f : AppRow → AppRow)
    (hf : ∀ r, (f r).app_name = r.app_name) (name : String) :
    ∀ l : List AppRow,
      (l.map f).find? (fun r => r.app_name == name) =
        (l.find? (fun r => r.app_name == name)).map f := by
  intro l
  induction l with
  | nil => rfl
  | cons a t ih =>
      simp only [List.map_cons, List.find?]
      rw [hf a]
      cases h : (a.app_name == name) <;> simp [h, ih]

theorem get_or_create_found {name : String} {now : Nat} {db : DB} {r : AppRow}
    (h : findApp name db = some r) :
    get_or_create_app name now db = ((r.id, r.version, r.status), db) := by
  unfold get_or_create_app
  rw [h]

theorem analyze_of_eq {env : Env} {i : Nat} {src : Option FSTree} {db : DB}
    (h : pyDictEq (tree_fingerprint env src) (get_file_hashes i db) = true) :
    analyze_application env i src db = (false, db) := by
  simp [analyze_application, h]

theorem analyze_of_ne {env : Env} {i : Nat} {src : Option FSTree} {db : DB}
    (h : pyDictEq (tree_fingerprint env src) (get_file_hashes i db) = false) :
    analyze_application env i src db =
      (true, update_file_hashes i (tree_fingerprint env src) db) := by
  simp [analyze_application, h]

theorem findApp_update_file_hashes (i : Nat) (h : List (String × String))
    (db : DB) (name : String) :
    findApp name (update_file_hashes i h db) = findApp name db := rfl

theorem findApp_update_app_status (i : Nat) (st : String) (v : Nat)
    (now : Nat) (db : DB) (name : String) :
    findApp name (update_app_status i st (some v) now db) =
      (findApp name db).map (fun r =>
        if r.id = i then
          if v = 0 then { r with status := st, last_updated := now }
          else { r with status := st, version := v, last_updated := now }
        else r) := by
  unfold update_app_status findApp
  by_cases hv : v = 0
  · simp only [hv, if_true, ite_true]
    rw [find?_map_name (fun r =>
        if r.id = i then { r with status := st, last_updated := now } else r)
      (by intro r; by_cases h : r.id = i <;> simp [h]) name]
  · simp only [hv, if_false, ite_false]
    rw [find?_map_name (fun r =>
        if r.id = i then { r with status := st, version := v, last_updated := now }
        else r)
      (by intro r; by_cases h : r.id = i <;> simp [h]) name]

theorem package_application_none (i v : Nat) (an : String) (od td : String)
    (disk : Bool) (db : DB) :
    package_application i v an none od td disk db = .error .fileNotFound := rfl

theorem package_application_nodisk (i v : Nat) (an : String) (t : FSTree)
    (od td : String) (db : DB) :
    package_application i v an (some t) od td false db = .error .osError := rfl

theorem package_application_ok (i v : Nat) (an : String) (t : FSTree)
    (od td : String) (db : DB) :
    package_application i v an (some t) od td true db =
      .ok ({ name := archiveName an v,
             archive_path := archivePath od an v,
             mode := "w:gz", added_path := td ++ "/" ++ an, arcname := an,
             contents := t },
           { db with apps := db.apps.map (fun r =>
               if r.id = i then
                 { r with package_path := some (archivePath od an v),
                          status := "packaged" }
               else r) }) := by
  unfold package_application archivePath
  rfl

theorem findApp_package_ok (i v : Nat) (an : String) (t : FSTree)
    (od td : String) (db : DB) (name : String) {ar : Archive} {db' : DB}
    (h : package_application i v an (some t) od td true db = .ok (ar, db')) :
    findApp name db' =
      (findApp name db).map (fun r =>
        if r.id = i then
          { r with package_path := some (archivePath od an v),
                   status := "packaged" }
        else r) := by
  rw [package_application_ok] at h
  cases h
  unfold findApp
  exact find?_map_name _ (by intro r; by_cases hh : r.id = i <;> simp [hh]) name _

theorem update_app_status_file_hashes (i : Nat) (st : String) (v : Option Nat)
    (now : Nat) (db : DB) :
    (update_app_status i st v now db).file_hashes = db.file_hashes := by
  unfold update_app_status
  cases v with
  | none => rfl
  | some x => by_cases hx : x = 0 <;> simp [hx]

theorem update_app_status_nextId (i : Nat) (st : String) (v : Option Nat)
    (now : Nat) (db : DB) :
    (update_app_status i st v now db).nextId = db.nextId := by
  unfold update_app_status
  cases v with
  | none => rfl
  | some x => by_cases hx : x = 0 <;> simp [hx]

theorem package_ok_file_hashes {i v : Nat} {an : String} {t : FSTree}
    {od td : String} {db : DB} {ar : Archive} {db' : DB}
    (h : package_application i v an (some t) od td true db = .ok (ar, db')) :
    db'.file_hashes = db.file_hashes := by
  rw [package_application_ok] at h
  cases h
  rfl

/-- After `update_file_hashes`, reading the application's fingerprint back
gives exactly the stored dict. -/
theorem get_file_hashes_update (i : Nat) (h : List (String × String))
    (db : DB) :
    get_file_hashes i (update_file_hashes i h db) = h := by
  unfold get_file_hashes update_file_hashes
  simp only [List.filter_append, List.filter_filter]
  rw [List.filter_eq_nil_iff.mpr (by intro a _; simp)]
  rw [List.filter_eq_self.mpr (by intro a ha; rcases List.mem_map.mp ha with ⟨x, _, rfl⟩; simp)]
  simp

theorem find?_append_none {p : AppRow → Bool} {l : List AppRow}
    (h : l.find? p = none) (x : AppRow) (hx : p x = true) :
    (l ++ [x]).find? p = some x := by
  induction l with
  | nil => simp [List.find?, hx]
  | cons a t ih =>
      simp only [List.find?] at h
      cases ha : p a with
      | true => rw [ha] at h; cases h
      | false =>
          rw [ha] at h
          simp only [List.cons_append, List.find?, ha]
          exact ih h

theorem get_or_create_notfound {name : String} {now : Nat} {db : DB}
    (h : findApp name db = none) :
    get_or_create_app name now db =
      ((db.nextId, 1, "new"), insertApp name now db) := by
  unfold get_or_create_app insertApp freshRow
  rw [h]

/-- If the row exists, is not `new`, and the stored fingerprint already
matches the source tree, `process_application` is a complete no-op: same
database, no archive, no plan, no error, `changed = false`. -/
theorem second_run_noop {env : Env} {name : String} {src : Option FSTree}
    {disk : Bool} {db : DB} {r : AppRow}
    (hfind : findApp name db = some r) (hst : ¬ r.status = "new")
    (heq : pyDictEq (tree_fingerprint env src) (get_file_hashes r.id db) = true) :
    process_application env name src disk db =
      { db := db, archives := [], plans := [], err := none, changed := false } := by
  unfold process_application
  rw [get_or_create_found hfind]
  dsimp only
  rw [analyze_of_eq heq]
  dsimp only
  rw [if_neg hst]
  rfl

theorem get_file_hashes_congr {i : Nat} {db db' : DB}
    (h : db'.file_hashes = db.file_hashes) :
    get_file_hashes i db' = get_file_hashes i db := by
  unfold get_file_hashes
  rw [h]

theorem findApp_mk_map (f : AppRow → AppRow)
    (hf : ∀ r, (f r).app_name = r.app_name) (name : String)
    (l : List AppRow) (fh : List (Nat × String × String)) (ni : Nat) :
    findApp name (DB.mk (l.map f) fh ni) =
      (l.find? (fun r => r.app_name == name)).map f :=
  find?_map_name f hf name l

/-- The evolution of an existing application row through one
`process_application` call: the row persists under the same id, its status
never returns to `new`, its version grows by exactly 1 precisely when the
analysis detected a change on a row that was already past `new`, and the
stored fingerprint afterwards always matches the current source tree. -/
theorem process_found_spec (env : Env) (name : String) (src : Option FSTree)
    (disk : Bool) (db : DB) (r : AppRow) (hfind : findApp name db = some r) :
    ∃ r', findApp name (process_application env name src disk db).db = some r' ∧
      r'.id = r.id ∧ ¬ r'.status = "new" ∧
      r'.version = r.version +
        (if ¬ r.status = "new" ∧
            (process_application env name src disk db).changed = true
         then 1 else 0) ∧
      pyDictEq (tree_fingerprint env src)
        (get_file_hashes r.id (process_application env name src disk db).db) =
        true := by
  cases hc : pyDictEq (tree_fingerprint env src) (get_file_hashes r.id db) with
  | true =>
      by_cases hst : r.status = "new"
      · unfold process_application
        rw [get_or_create_found hfind]
        dsimp only
        rw [analyze_of_eq hc]
        dsimp only
        rw [if_pos hst]
        cases src with
        | none =>
            rw [package_application_none]
            dsimp only
            rw [findApp_update_app_status, hfind]
            by_cases hv : r.version = 0 <;>
              exact ⟨_, rfl, by simp [hv], by simp [hv],
                by simp [hv, hst],
                by rw [get_file_hashes_congr (update_app_status_file_hashes _ _ _ _ _)]; exact hc⟩
        | some t =>
            cases disk with
            | false =>
                rw [package_application_nodisk]
                dsimp only
                rw [findApp_update_app_status, hfind]
                by_cases hv : r.version = 0 <;>
                  exact ⟨_, rfl, by simp [hv], by simp [hv],
                    by simp [hv, hst],
                    by rw [get_file_hashes_congr (update_app_status_file_hashes _ _ _ _ _)]; exact hc⟩
            | true =>
                cases hpkg : package_application r.id r.version name (some t)
                    env.output_dir env.temp_dir true
                    (update_app_status r.id "analyzed" (some r.version) env.now db) with
                | error e => simp [package_application_ok] at hpkg
                | ok p =>
                    obtain ⟨ar, db3⟩ := p
                    dsimp only
                    rw [findApp_package_ok _ _ _ _ _ _ _ name hpkg,
                        findApp_update_app_status, hfind]
                    by_cases hv : r.version = 0 <;>
                      exact ⟨_, rfl, by simp [hv], by simp [hv],
                        by simp [hv, hst],
                        by rw [get_file_hashes_congr (package_ok_file_hashes hpkg),
                               get_file_hashes_congr (update_app_status_file_hashes _ _ _ _ _)]
                           exact hc⟩
      · rw [second_run_noop hfind hst hc]
        exact ⟨r, hfind, rfl, hst, by simp, hc⟩
  | false =>
      have hfind1 : findApp name
          (update_file_hashes r.id (tree_fingerprint env src) db) = some r := hfind
      have hgf : get_file_hashes r.id
          (update_file_hashes r.id (tree_fingerprint env src) db) =
            tree_fingerprint env src :=
        get_file_hashes_update _ _ _
      unfold process_application
      rw [get_or_create_found hfind]
      dsimp only
      rw [analyze_of_ne hc]
      dsimp only
      by_cases hst : r.status = "new"
      · rw [if_pos hst]
        cases src with
        | none =>
            rw [package_application_none]
            dsimp only
            rw [findApp_update_app_status, hfind1]
            by_cases hv : r.version = 0 <;>
              exact ⟨_, rfl, by simp [hv], by simp [hv],
                by simp [hv, hst],
                by rw [get_file_hashes_congr (update_app_status_file_hashes _ _ _ _ _), hgf]
                   exact pyDictEq_refl _⟩
        | some t =>
            cases disk with
            | false =>
                rw [package_application_nodisk]
                dsimp only
                rw [findApp_update_app_status, hfind1]
                by_cases hv : r.version = 0 <;>
                  exact ⟨_, rfl, by simp [hv], by simp [hv],
                    by simp [hv, hst],
                    by rw [get_file_hashes_congr (update_app_status_file_hashes _ _ _ _ _), hgf]
                       exact pyDictEq_refl _⟩
            | true =>
                cases hpkg : package_application r.id r.version name (some t)
                    env.output_dir env.temp_dir true
                    (update_app_status r.id "analyzed" (some r.version) env.now
                      (update_file_hashes r.id (tree_fingerprint env (some t)) db)) with
                | error e => simp [package_application_ok] at hpkg
                | ok p =>
                    obtain ⟨ar, db3⟩ := p
                    dsimp only
                    rw [findApp_package_ok _ _ _ _ _ _ _ name hpkg,
                        findApp_update_app_status, hfind1]
                    by_cases hv : r.version = 0 <;>
                      exact ⟨_, rfl, by simp [hv], by simp [hv],
                        by simp [hv, hst],
                        by rw [get_file_hashes_congr (package_ok_file_hashes hpkg),
                               get_file_hashes_congr (update_app_status_file_hashes _ _ _ _ _),
                               hgf]
                           exact pyDictEq_refl _⟩
      · rw [if_neg hst, if_pos rfl]
        cases src with
        | none =>
            rw [package_application_none]
            dsimp only
            rw [findApp_update_app_status, hfind1]
            exact ⟨_, rfl, by simp [Nat.succ_ne_zero],
              by simp [Nat.succ_ne_zero],
              by simp [Nat.succ_ne_zero, hst],
              by rw [get_file_hashes_congr (update_app_status_file_hashes _ _ _ _ _), hgf]
                 exact pyDictEq_refl _⟩
        | some t =>
            cases disk with
            | false =>
                rw [package_application_nodisk]
                dsimp only
                rw [findApp_update_app_status, hfind1]
                exact ⟨_, rfl, by simp [Nat.succ_ne_zero],
                  by simp [Nat.succ_ne_zero],
                  by simp [Nat.succ_ne_zero, hst],
                  by rw [get_file_hashes_congr (update_app_status_file_hashes _ _ _ _ _), hgf]
                     exact pyDictEq_refl _⟩
            | true =>
                cases hpkg : package_application r.id (r.version + 1) name (some t)
                    env.output_dir env.temp_dir true
                    (update_app_status r.id "analyzed" (some (r.version + 1)) env.now
                      (update_file_hashes r.id (tree_fingerprint env (some t)) db)) with
                | error e => simp [package_application_ok] at hpkg
                | ok p =>
                    obtain ⟨ar, db3⟩ := p
                    dsimp only
                    rw [findApp_package_ok _ _ _ _ _ _ _ name hpkg,
                        findApp_update_app_status, hfind1]
                    exact ⟨_, rfl, by simp [Nat.succ_ne_zero],
                      by simp [Nat.succ_ne_zero],
                      by simp [Nat.succ_ne_zero, hst],
                      by rw [get_file_hashes_congr (package_ok_file_hashes hpkg),
                             get_file_hashes_congr (update_app_status_file_hashes _ _ _ _ _),
                             hgf]
                         exact pyDictEq_refl _⟩

theorem findApp_after_insert {name : String} {db : DB} (now : Nat)
    (hfind : findApp name db = none) :
    findApp name (insertApp name now db) = some (freshRow name now db) := by
  unfold findApp at hfind
  unfold insertApp findApp
  exact find?_append_none hfind _ (by simp [freshRow])

theorem insertApp_file_hashes (name : String) (now : Nat) (db : DB) :
    (insertApp name now db).file_hashes = db.file_hashes := rfl

/-- A first run on an application with no row yet: afterwards the row
exists with id `db.nextId`, version 1, a status past `new`, and a stored
fingerprint matching the current source tree. -/
theorem process_notfound_spec (env : Env) (name : String) (src : Option FSTree)
    (disk : Bool) (db : DB) (hfind : findApp name db = none) :
    ∃ r', findApp name (process_application env name src disk db).db = some r' ∧
      r'.id = db.nextId ∧ ¬ r'.status = "new" ∧ r'.version = 1 ∧
      pyDictEq (tree_fingerprint env src)
        (get_file_hashes db.nextId (process_application env name src disk db).db) =
        true := by
  have hins := findApp_after_insert env.now hfind
  unfold process_application
  rw [get_or_create_notfound hfind]
  dsimp only
  cases hc : pyDictEq (tree_fingerprint env src)
      (get_file_hashes db.nextId (insertApp name env.now db)) with
  | true =>
      rw [analyze_of_eq hc]
      dsimp only
      rw [if_pos rfl]
      cases src with
      | none =>
          rw [package_application_none]
          dsimp only
          rw [findApp_update_app_status, hins]
          exact ⟨_, rfl, by simp [freshRow], by simp [freshRow],
            by simp [freshRow],
            by rw [get_file_hashes_congr (update_app_status_file_hashes _ _ _ _ _)]
               exact hc⟩
      | some t =>
          cases disk with
          | false =>
              rw [package_application_nodisk]
              dsimp only
              rw [findApp_update_app_status, hins]
              exact ⟨_, rfl, by simp [freshRow], by simp [freshRow],
                by simp [freshRow],
                by rw [get_file_hashes_congr (update_app_status_file_hashes _ _ _ _ _)]
                   exact hc⟩
          | true =>
              cases hpkg : package_application db.nextId 1 name (some t)
                  env.output_dir env.temp_dir true
                  (update_app_status db.nextId "analyzed" (some 1) env.now
                    (insertApp name env.now db)) with
              | error e => simp [package_application_ok] at hpkg
              | ok p =>
                  obtain ⟨ar, db3⟩ := p
                  dsimp only
                  rw [findApp_package_ok _ _ _ _ _ _ _ name hpkg,
                      findApp_update_app_status, hins]
                  exact ⟨_, rfl, by simp [freshRow], by simp [freshRow],
                    by simp [freshRow],
                    by rw [get_file_hashes_congr (package_ok_file_hashes hpkg),
                           get_file_hashes_congr (update_app_status_file_hashes _ _ _ _ _)]
                       exact hc⟩
  | false =>
      rw [analyze_of_ne hc]
      dsimp only
      rw [if_pos rfl]
      have hfind1 : findApp name
          (update_file_hashes db.nextId (tree_fingerprint env src)
            (insertApp name env.now db)) = some (freshRow name env.now db) := hins
      have hgf : get_file_hashes db.nextId
          (update_file_hashes db.nextId (tree_fingerprint env src)
            (insertApp name env.now db)) = tree_fingerprint env src :=
        get_file_hashes_update _ _ _
      cases src with
      | none =>
          rw [package_application_none]
          dsimp only
          rw [findApp_update_app_status, hfind1]
          exact ⟨_, rfl, by simp [freshRow], by simp [freshRow],
            by simp [freshRow],
            by rw [get_file_hashes_congr (update_app_status_file_hashes _ _ _ _ _), hgf]
               exact pyDictEq_refl _⟩
      | some t =>
          cases disk with
          | false =>
              rw [package_application_nodisk]
              dsimp only
              rw [findApp_update_app_status, hfind1]
              exact ⟨_, rfl, by simp [freshRow], by simp [freshRow],
                by simp [freshRow],
                by rw [get_file_hashes_congr (update_app_status_file_hashes _ _ _ _ _), hgf]
                   exact pyDictEq_refl _⟩
          | true =>
              cases hpkg : package_application db.nextId 1 name (some t)
                  env.output_dir env.temp_dir true
                  (update_app_status db.nextId "analyzed" (some 1) env.now
                    (update_file_hashes db.nextId (tree_fingerprint env (some t))
                      (insertApp name env.now db))) with
              | error e => simp [package_application_ok] at hpkg
              | ok p =>
                  obtain ⟨ar, db3⟩ := p
                  dsimp only
                  rw [findApp_package_ok _ _ _ _ _ _ _ name hpkg,
                      findApp_update_app_status, hfind1]
                  exact ⟨_, rfl, by simp [freshRow], by simp [freshRow],
                    by simp [freshRow],
                    by rw [get_file_hashes_congr (package_ok_file_hashes hpkg),
                           get_file_hashes_congr (update_app_status_file_hashes _ _ _ _ _),
                           hgf]
                       exact pyDictEq_refl _⟩


/-- Over any sequence of further runs of an application already past
`new`, the stored version grows by exactly the number of runs whose
analysis detected a change. -/
theorem runSeq_version (env : Env) (name : String) :
    ∀ (steps : List (Option FSTree × Bool)) (db : DB) (r : AppRow),
      findApp name db = some r → ¬ r.status = "new" →
      ∃ r', findApp name (runSeq env name steps db).1 = some r' ∧
        ¬ r'.status = "new" ∧
        r'.version = r.version + (runSeq env name steps db).2 := by
  intro steps
  induction steps with
  | nil =>
      intro db r hf hs
      exact ⟨r, hf, hs, by simp [runSeq]⟩
  | cons s rest ih =>
      intro db r hf hs
      obtain ⟨src, disk⟩ := s
      obtain ⟨r1, hf1, _, hs1, hv1, _⟩ := process_found_spec env name src disk db r hf
      obtain ⟨r2, hf2, hs2, hv2⟩ :=
        ih (process_application env name src disk db).db r1 hf1 hs1
      refine ⟨r2, by simp only [runSeq]; exact hf2, hs2, ?_⟩
      simp only [runSeq]
      rw [hv2, hv1]
      cases hch : (process_application env name src disk db).changed with
      | true => simp only [hs, not_false_eq_true, true_and, if_true]; omega
      | false => simp [hs]

/-- C1 — Change detection is exact mapping equality: `analyze_application`
reports no change precisely when the freshly computed fingerprint and the
stored fingerprint agree as mappings — the same digest (or absence) at
every key — so any added key, removed key, or differing digest yields
`changed = true`. -/
theorem C1_change_detection_exact (env : Env) (app_id : Nat)
    (source : Option FSTree) (db : DB) :
    (analyze_application env app_id source db).1 = false ↔
      ∀ k, assocGet k (tree_fingerprint env source) =
           assocGet k (get_file_hashes app_id db) := by
  rw [← pyDictEq_iff]
  unfold analyze_application
  cases h : pyDictEq (tree_fingerprint env source) (get_file_hashes app_id db) <;>
    simp [h]

/-- C2 — Version monotonicity: for every application, (i) one processing
run never decreases the stored version; (ii) on a run where the row is
already past `new` (i.e. after the first packaging) the version grows by
exactly 1 when a change is detected and stays put otherwise; (iii) across
any sequence of runs starting past `new`, the final version equals the
initial version plus the number of change-detecting runs — no gaps. -/
theorem C2_version_monotonicity (env : Env) (name : String) :
    (∀ (db : DB) (r : AppRow) (src : Option FSTree) (disk : Bool),
      findApp name db = some r →
      ∃ r', findApp name (process_application env name src disk db).db = some r' ∧
        r.version ≤ r'.version) ∧
    (∀ (db : DB) (r : AppRow) (src : Option FSTree) (disk : Bool),
      findApp name db = some r → ¬ r.status = "new" →
      ∃ r', findApp name (process_application env name src disk db).db = some r' ∧
        r'.version = r.version +
          (if (process_application env name src disk db).changed = true
           then 1 else 0)) ∧
    (∀ (steps : List (Option FSTree × Bool)) (db : DB) (r : AppRow),
      findApp name db = some r → ¬ r.status = "new" →
      ∃ r', findApp name (runSeq env name steps db).1 = some r' ∧
        r'.version = r.version + (runSeq env name steps db).2) := by
  refine ⟨?_, ?_, ?_⟩
  · intro db r src disk hf
    obtain ⟨r', hf', _, _, hv, _⟩ := process_found_spec env name src disk db r hf
    exact ⟨r', hf', by rw [hv]; exact Nat.le_add_right _ _⟩
  · intro db r src disk hf hs
    obtain ⟨r', hf', _, _, hv, _⟩ := process_found_spec env name src disk db r hf
    refine ⟨r', hf', ?_⟩
    rw [hv]
    cases hch : (process_application env name src disk db).changed <;>
      simp [hch, hs]
  · intro steps db r hf hs
    obtain ⟨r', hf', _, hv⟩ := runSeq_version env name steps db r hf hs
    exact ⟨r', hf', hv⟩

/-- Witness for C2: a packaged application at version 1 put through three
further runs, two of which change the tree; the final version is
1 + (number of change-detecting runs). -/
theorem C2_version_monotonicity_witness :
    appVersion "foo" (runSeq envDemo "foo" stepsDemo dbDemo1).1 =
      some (1 + (runSeq envDemo "foo" stepsDemo dbDemo1).2) := by
  obtain ⟨r', h1, h2⟩ := (C2_version_monotonicity envDemo "foo").2.2 stepsDemo
    dbDemo1 rowDemo1 (by rfl) (by decide)
  unfold appVersion
  rw [h1, Option.map_some', h2]
  rfl

/-- C3 — Idempotence of a no-change re-run: after a completed
`process_application` run (no error), running again with the filesystem
unchanged leaves the database exactly as it was, produces no archive and no
plan, raises no error, and the change detector reports `changed = false`. -/
theorem C3_idempotent_rerun (env : Env) (name : String) (src : Option FSTree)
    (disk disk2 : Bool) (db : DB)
    (_hok : (process_application env name src disk db).err = none) :
    process_application env name src disk2
        (process_application env name src disk db).db =
      { db := (process_application env name src disk db).db, archives := [],
        plans := [], err := none, changed := false } := by
  cases hfind : findApp name db with
  | some r =>
      obtain ⟨r', hf', hid, hs', _, hhash⟩ :=
        process_found_spec env name src disk db r hfind
      exact second_run_noop hf' hs' (by rw [hid]; exact hhash)
  | none =>
      obtain ⟨r', hf', hid, hs', _, hhash⟩ :=
        process_notfound_spec env name src disk db hfind
      exact second_run_noop hf' hs' (by rw [hid]; exact hhash)

/-- Witness for C3: `foo` packaged from `treeA`; an identical second run is
a complete no-op. -/
theorem C3_idempotent_rerun_witness :
    process_application envDemo "foo" (some treeA) true dbDemo1 =
      { db := dbDemo1, archives := [], plans := [], err := none,
        changed := false } :=
  C3_idempotent_rerun envDemo "foo" (some treeA) true true dbEmpty (by rfl)

/-- C9 — An application whose stored status is `new` (a first discovery, or
a previously inserted row still at its defaults) is packaged at version 1
and gets a deployment plan no matter what the change analysis returned:
the `new` branch of `process_application` ignores `has_changed`. -/
theorem C9_new_app_always_packaged (env : Env) (name : String) (t : FSTree)
    (db : DB)
    (h : findApp name db = none ∨
         ∃ r, findApp name db = some r ∧ r.status = "new" ∧ r.version = 1) :
    (process_application env name (some t) true db).archives.map
        (fun a => a.name) = [archiveName name 1] ∧
    (process_application env name (some t) true db).plans =
        [generate_deployment_plan name 1 env.plans_dir] ∧
    (process_application env name (some t) true db).err = none := by
  rcases h with hfind | ⟨r, hfind, hst, hver⟩
  · unfold process_application
    rw [get_or_create_notfound hfind]
    dsimp only
    cases hc : pyDictEq (tree_fingerprint env (some t))
        (get_file_hashes db.nextId (insertApp name env.now db)) with
    | true =>
        rw [analyze_of_eq hc]
        dsimp only
        rw [if_pos rfl, package_application_ok]
        exact ⟨rfl, rfl, rfl⟩
    | false =>
        rw [analyze_of_ne hc]
        dsimp only
        rw [if_pos rfl, package_application_ok]
        exact ⟨rfl, rfl, rfl⟩
  · unfold process_application
    rw [get_or_create_found hfind]
    dsimp only
    cases hc : pyDictEq (tree_fingerprint env (some t))
        (get_file_hashes r.id db) with
    | true =>
        rw [analyze_of_eq hc]
        dsimp only
        rw [if_pos hst, hver, package_application_ok]
        exact ⟨rfl, rfl, rfl⟩
    | false =>
        rw [analyze_of_ne hc]
        dsimp only
        rw [if_pos hst, hver, package_application_ok]
        exact ⟨rfl, rfl, rfl⟩

/-- Witness for C9: a brand-new application with an empty source directory,
where the analysis sees no difference from the empty stored fingerprint
(`changed = false`), is still archived as `empty_v1.tar.gz`. -/
theorem C9_new_app_always_packaged_witness :
    ((process_application envDemo "empty" (some (FSTree.mk [] [])) true
        dbEmpty).archives.map (fun a => a.name) = [archiveName "empty" 1] ∧
      (process_application envDemo "empty" (some (FSTree.mk [] [])) true
        dbEmpty).plans = [generate_deployment_plan "empty" 1 envDemo.plans_dir] ∧
      (process_application envDemo "empty" (some (FSTree.mk [] [])) true
        dbEmpty).err = none) ∧
    (process_application envDemo "empty" (some (FSTree.mk [] [])) true
        dbEmpty).changed = false :=
  ⟨C9_new_app_always_packaged envDemo "empty" (FSTree.mk [] []) dbEmpty
      (Or.inl (by rfl)),
    by rfl⟩

/-- C10 — Fingerprint persistence is not atomic with packaging: a run that
detects a change on a non-new application commits the wholesale fingerprint
replacement and the version bump before packaging, so when archive creation
then fails (disk error), the analysis result `true`, the replaced
fingerprint and the bumped `analyzed` row all survive, no archive exists —
and any later run over the unchanged tree detects nothing and never
re-packages the changed content. -/
theorem C10_fingerprint_not_rolled_back (env : Env) (name : String)
    (t : FSTree) (db : DB) (r : AppRow) (disk2 : Bool)
    (hfind : findApp name db = some r) (hst : ¬ r.status = "new")
    (hch : pyDictEq (tree_fingerprint env (some t))
      (get_file_hashes r.id db) = false) :
    (process_application env name (some t) false db).changed = true ∧
    (process_application env name (some t) false db).err = some .osError ∧
    (process_application env name (some t) false db).archives = [] ∧
    get_file_hashes r.id (process_application env name (some t) false db).db =
      tree_fingerprint env (some t) ∧
    findApp name (process_application env name (some t) false db).db =
      some { r with status := "analyzed", version := r.version + 1,
                    last_updated := env.now } ∧
    process_application env name (some t) disk2
        (process_application env name (some t) false db).db =
      { db := (process_application env name (some t) false db).db,
        archives := [], plans := [], err := none, changed := false } := by
  have hfind1 : findApp name
      (update_file_hashes r.id (tree_fingerprint env (some t)) db) = some r :=
    hfind
  have hrun1 : process_application env name (some t) false db =
      { db := update_app_status r.id "analyzed" (some (r.version + 1)) env.now
                (update_file_hashes r.id (tree_fingerprint env (some t)) db),
        archives := [], plans := [], err := some .osError, changed := true } := by
    unfold process_application
    rw [get_or_create_found hfind]
    dsimp only
    rw [analyze_of_ne hch]
    dsimp only
    rw [if_neg hst, if_pos rfl, package_application_nodisk]
  have hgf : get_file_hashes r.id
      (process_application env name (some t) false db).db =
        tree_fingerprint env (some t) := by
    rw [hrun1]
    dsimp only
    rw [get_file_hashes_congr (update_app_status_file_hashes _ _ _ _ _)]
    exact get_file_hashes_update _ _ _
  have hrow : findApp name (process_application env name (some t) false db).db =
      some { r with status := "analyzed", version := r.version + 1,
                    last_updated := env.now } := by
    rw [hrun1]
    dsimp only
    rw [findApp_update_app_status, hfind1]
    simp [Nat.succ_ne_zero]
  refine ⟨by rw [hrun1], by rw [hrun1], by rw [hrun1], hgf, hrow, ?_⟩
  exact second_run_noop hrow (by simp) (by rw [hgf]; exact pyDictEq_refl _)

/-- Witness for C10: `foo` is packaged at v1 from `treeA`; a run over
`treeB` with a failing disk commits fingerprint and version bump but no
archive, and the follow-up run re-packages nothing. -/
theorem C10_fingerprint_not_rolled_back_witness :
    (process_application envDemo "foo" (some treeB) false dbDemo1).changed = true ∧
    (process_application envDemo "foo" (some treeB) false dbDemo1).err =
      some .osError ∧
    (process_application envDemo "foo" (some treeB) false dbDemo1).archives = [] ∧
    get_file_hashes rowDemo1.id
        (process_application envDemo "foo" (some treeB) false dbDemo1).db =
      tree_fingerprint envDemo (some treeB) ∧
    findApp "foo" (process_application envDemo "foo" (some treeB) false dbDemo1).db =
      some { rowDemo1 with status := "analyzed", version := rowDemo1.version + 1,
                           last_updated := envDemo.now } ∧
    process_application envDemo "foo" (some treeB) true
        (process_application envDemo "foo" (some treeB) false dbDemo1).db =
      { db := (process_application envDemo "foo" (some treeB) false dbDemo1).db,
        archives := [], plans := [], err := none, changed := false } :=
  C10_fingerprint_not_rolled_back envDemo "foo" treeB dbDemo1 rowDemo1 true
    (by rfl) (by decide) (by rfl)

/-! ## Shape of the tree fingerprint -/

theorem mem_walkPartsList_of_mem {x : List String × List Nat}
    (pre : List String) :
    ∀ (dirs : List (String × FSTree)) (n : String) (t2 : FSTree),
      (n, t2) ∈ dirs → x ∈ walkParts (pre ++ [n]) t2 →
      x ∈ walkPartsList pre dirs := by
  intro dirs
  induction dirs with
  | nil => intro n t2 h; cases h
  | cons d rest ih =>
      intro n t2 hd hx
      obtain ⟨dn, dt⟩ := d
      rw [walkPartsList]
      rcases List.mem_cons.mp hd with h | h
      · cases h
        exact List.mem_append.mpr (Or.inl hx)
      · exact List.mem_append.mpr (Or.inr (ih n t2 h hx))

/-- Completeness of the walk: every regular file reachable in the tree
contributes its relative-path parts and content. -/
theorem walkParts_complete :
    ∀ (parts : List String) (t : FSTree) (c : List Nat) (pre : List String),
      findFile t parts = some c → (pre ++ parts, c) ∈ walkParts pre t := by
  intro parts
  induction parts with
  | nil => intro t c pre h; simp [findFile] at h
  | cons n rest ih =>
      intro t c pre h
      obtain ⟨files, dirs⟩ := t
      cases rest with
      | nil =>
          rw [findFile] at h
          have hm : (n, c) ∈ files := assocGet_mem h
          rw [walkParts]
          exact List.mem_append.mpr (Or.inl (List.mem_map.mpr ⟨(n, c), hm, rfl⟩))
      | cons m rest2 =>
          have h : (match assocGet n (FSTree.mk files dirs).dirs with
              | some t2 => findFile t2 (m :: rest2)
              | none => none) = some c := h
          cases hd : assocGet n (FSTree.mk files dirs).dirs with
          | none => rw [hd] at h; cases h
          | some t2 =>
              rw [hd] at h
              have hmem : (n, t2) ∈ dirs := assocGet_mem hd
              have hx := ih t2 c (pre ++ [n]) h
              rw [List.append_assoc] at hx
              simp only [List.singleton_append] at hx
              rw [walkParts]
              exact List.mem_append.mpr
                (Or.inr (mem_walkPartsList_of_mem pre dirs n t2 hmem hx))

/-- Soundness of the walk over well-formed trees: every walked entry sits
at a non-empty relative path at which `findFile` finds exactly that
content — so no entry for the root, and none for a directory. -/
theorem walkParts_sound :
    ∀ (pre : List String) (t : FSTree), wfTree t = true →
      ∀ p c, (p, c) ∈ walkParts pre t →
        ∃ parts, parts ≠ [] ∧ p = pre ++ parts ∧ findFile t parts = some c := by
  refine walkParts.induct
    (fun pre t => wfTree t = true →
      ∀ p c, (p, c) ∈ walkParts pre t →
        ∃ parts, parts ≠ [] ∧ p = pre ++ parts ∧ findFile t parts = some c)
    (fun pre ds => wfDirs ds = true →
      ∀ p c, (p, c) ∈ walkPartsList pre ds →
        ∃ n t2 parts2, (n, t2) ∈ ds ∧ parts2 ≠ [] ∧
          p = (pre ++ [n]) ++ parts2 ∧ findFile t2 parts2 = some c)
    ?_ ?_ ?_
  · intro pre files dirs ihds hwf p c hmem
    rw [wfTree, Bool.and_eq_true] at hwf
    have hnd := of_decide_eq_true hwf.1
    have hndf : (files.map Prod.fst).Nodup :=
      (List.sublist_append_left _ _).nodup hnd
    have hndd : (dirs.map Prod.fst).Nodup :=
      (List.sublist_append_right _ _).nodup hnd
    rw [walkParts] at hmem
    rcases List.mem_append.mp hmem with hl | hr
    · obtain ⟨a, ha, heq⟩ := List.mem_map.mp hl
      obtain ⟨hp, hc⟩ := Prod.mk.injEq .. ▸ heq
      refine ⟨[a.1], by simp, hp.symm, ?_⟩
      rw [findFile]
      subst hc
      exact assocGet_of_mem_nodup (by simpa using ha) hndf
    · obtain ⟨n, t2, parts2, hdm, hne, hp, hff⟩ := ihds hwf.2 p c hr
      refine ⟨n :: parts2, by simp, ?_, ?_⟩
      · rw [hp, List.append_assoc, List.singleton_append]
      · cases parts2 with
        | nil => exact absurd rfl hne
        | cons m r2 =>
            have hag : assocGet n (FSTree.mk files dirs).dirs = some t2 :=
              assocGet_of_mem_nodup hdm hndd
            show (match assocGet n (FSTree.mk files dirs).dirs with
              | some t2 => findFile t2 (m :: r2)
              | none => none) = some c
            rw [hag]
            exact hff
  · intro pre hwf p c hmem
    rw [walkPartsList] at hmem
    cases hmem
  · intro pre n t rest iht ihrest hwf p c hmem
    rw [wfDirs, Bool.and_eq_true] at hwf
    rw [walkPartsList] at hmem
    rcases List.mem_append.mp hmem with hl | hr
    · obtain ⟨parts, hne, hp, hff⟩ := iht hwf.1 p c hl
      exact ⟨n, t, parts, List.mem_cons_self _ _, hne, hp, hff⟩
    · obtain ⟨n2, t2, parts2, hm, hne, hp, hff⟩ := ihrest hwf.2 p c hr
      exact ⟨n2, t2, parts2, List.mem_cons_of_mem _ hm, hne, hp, hff⟩

/-- C7 (amended) — Tree fingerprint shape: over a well-formed source tree
the fingerprint's keys are exactly the relative paths of the regular files
(all of them, nested ones included), each joined with the host separator
`env.sep` — `'/'` only on POSIX hosts, since the code stringifies a
`pathlib` path — never the root itself and never a directory; each value is
the digest of that file's content. -/
theorem C7_fingerprint_shape (env : Env) (t : FSTree) (hwf : wfTree t = true) :
    (∀ parts c, findFile t parts = some c →
      (String.intercalate env.sep parts, env.hashFn c) ∈
        tree_fingerprint env (some t)) ∧
    (∀ p h, (p, h) ∈ tree_fingerprint env (some t) →
      ∃ parts c, parts ≠ [] ∧ p = String.intercalate env.sep parts ∧
        h = env.hashFn c ∧ findFile t parts = some c) := by
  constructor
  · intro parts c hff
    have hm := walkParts_complete parts t c [] hff
    rw [List.nil_append] at hm
    unfold tree_fingerprint
    exact List.mem_map.mpr ⟨(parts, c), hm, rfl⟩
  · intro p h hmem
    unfold tree_fingerprint at hmem
    obtain ⟨⟨parts, c⟩, hin, heq⟩ := List.mem_map.mp hmem
    obtain ⟨parts2, hne, hp, hff⟩ := walkParts_sound [] t hwf parts c hin
    rw [List.nil_append] at hp
    subst hp
    have hp2 : String.intercalate env.sep parts = p := congrArg Prod.fst heq
    have hh : env.hashFn c = h := congrArg Prod.snd heq
    exact ⟨parts, c, hne, hp2.symm, hh.symm, hff⟩

/-- Counterexample for C7 as stated: on a host whose separator is a
backslash the fingerprint key of the nested file is `sub\x5cb.txt`, not the
POSIX-style `sub/b.txt` — the keys are not `'/'`-joined regardless of
host. -/
theorem C7_counterexample :
    (tree_fingerprint envWin (some treeNested)).map Prod.fst =
      ["a.txt", "sub\\b.txt"] ∧
    "sub/b.txt" ∉ (tree_fingerprint envWin (some treeNested)).map Prod.fst :=
  ⟨rfl, by decide⟩

/-- Witness for C7 (amended): on the POSIX host the nested file appears
under its `'/'`-joined relative path. -/
theorem C7_fingerprint_shape_witness :
    wfTree treeNested = true ∧
    ("sub/b.txt", hashDemo [98]) ∈ tree_fingerprint envDemo (some treeNested) := by
  refine ⟨by rfl, ?_⟩
  have h := (C7_fingerprint_shape envDemo treeNested (by rfl)).1
    ["sub", "b.txt"] [98] (by rfl)
  exact h

/-- C8 — Frame condition of `update_app_status` with the version argument
omitted: only the status and `last_updated` of the matching row change; the
version column, every other column, every other row, the `file_hashes`
table and the id counter are untouched. -/
theorem C8_update_status_frame (i : Nat) (st : String) (now : Nat) (db : DB) :
    (update_app_status i st none now db).file_hashes = db.file_hashes ∧
    (update_app_status i st none now db).nextId = db.nextId ∧
    (update_app_status i st none now db).apps.map (fun r => r.id) =
      db.apps.map (fun r => r.id) ∧
    (update_app_status i st none now db).apps.map (fun r => r.app_name) =
      db.apps.map (fun r => r.app_name) ∧
    (update_app_status i st none now db).apps.map (fun r => r.version) =
      db.apps.map (fun r => r.version) ∧
    (update_app_status i st none now db).apps.map (fun r => r.package_path) =
      db.apps.map (fun r => r.package_path) ∧
    (update_app_status i st none now db).apps.map (fun r => r.context_notes) =
      db.apps.map (fun r => r.context_notes) ∧
    (∀ r ∈ db.apps, ¬ r.id = i →
      r ∈ (update_app_status i st none now db).apps) ∧
    (∀ r ∈ db.apps, r.id = i →
      { r with status := st, last_updated := now } ∈
        (update_app_status i st none now db).apps) := by
  unfold update_app_status
  refine ⟨rfl, rfl, ?_, ?_, ?_, ?_, ?_, ?_, ?_⟩
  · rw [List.map_map]
    exact List.map_congr_left
      (fun r _ => by by_cases h : r.id = i <;> simp [h, Function.comp])
  · rw [List.map_map]
    exact List.map_congr_left
      (fun r _ => by by_cases h : r.id = i <;> simp [h, Function.comp])
  · rw [List.map_map]
    exact List.map_congr_left
      (fun r _ => by by_cases h : r.id = i <;> simp [h, Function.comp])
  · rw [List.map_map]
    exact List.map_congr_left
      (fun r _ => by by_cases h : r.id = i <;> simp [h, Function.comp])
  · rw [List.map_map]
    exact List.map_congr_left
      (fun r _ => by by_cases h : r.id = i <;> simp [h, Function.comp])
  · intro r hr hne
    exact List.mem_map.mpr ⟨r, hr, by simp [hne]⟩
  · intro r hr hid
    exact List.mem_map.mpr ⟨r, hr, by simp [hid]⟩

/-- Witness for C8: updating `foo`'s status only, its version column is
untouched and the row holds the new status with the new timestamp. -/
theorem C8_update_status_frame_witness :
    (update_app_status 1 "deployed" none 42 dbDemo1).apps.map
        (fun r => r.version) = dbDemo1.apps.map (fun r => r.version) ∧
    { rowDemo1 with status := "deployed", last_updated := 42 } ∈
      (update_app_status 1 "deployed" none 42 dbDemo1).apps := by
  have h := C8_update_status_frame 1 "deployed" 42 dbDemo1
  refine ⟨h.2.2.2.2.1, ?_⟩
  refine h.2.2.2.2.2.2.2.2 rowDemo1 ?_ rfl
  rw [show dbDemo1.apps = [rowDemo1] from rfl]
  exact List.mem_singleton.mpr rfl

/-- Counterexample for C5 as stated: the UPDATE in `package_application`
switches the row's status from `analyzed` to `packaged` but leaves
`last_updated` at its old value 5 — a status mutation that does not set the
timestamp. -/
theorem C5_counterexample :
    appStatus "app" dbC5 = some "analyzed" ∧
    appStatus "app" dbC5after = some "packaged" ∧
    appLastUpdated "app" dbC5 = some 5 ∧
    appLastUpdated "app" dbC5after = some 5 :=
  ⟨rfl, rfl, rfl, rfl⟩

/-- C5 (amended) — Every call of `update_app_status` stamps the matching
row's `last_updated` with the current time (whether or not a version is
supplied), but the `packaged` status write performed inside
`package_application` leaves every row's `last_updated` unchanged. -/
theorem C5_amended_timestamps (i : Nat) (st : String) (v : Option Nat)
    (now : Nat) (db : DB) :
    (∀ r ∈ db.apps, r.id = i →
      ∃ r' ∈ (update_app_status i st v now db).apps,
        r'.id = r.id ∧ r'.status = st ∧ r'.last_updated = now) ∧
    (∀ (t : FSTree) (od td : String) (i2 v2 : Nat) (an : String)
        (ar : Archive) (db' : DB),
      package_application i2 v2 an (some t) od td true db = .ok (ar, db') →
      db'.apps.map (fun r => r.last_updated) =
        db.apps.map (fun r => r.last_updated)) := by
  constructor
  · intro r hr hid
    unfold update_app_status
    cases v with
    | none =>
        exact ⟨_, List.mem_map.mpr ⟨r, hr, rfl⟩, by simp [hid]⟩
    | some x =>
        by_cases hx : x = 0
        · simp only [hx, if_true, ite_true]
          exact ⟨_, List.mem_map.mpr ⟨r, hr, rfl⟩, by simp [hid]⟩
        · simp only [hx, if_false, ite_false]
          exact ⟨_, List.mem_map.mpr ⟨r, hr, rfl⟩, by simp [hid]⟩
  · intro t od td i2 v2 an ar db' h
    rw [package_application_ok] at h
    cases h
    rw [List.map_map]
    exact List.map_congr_left
      (fun r _ => by by_cases hh : r.id = i2 <;> simp [hh, Function.comp])

/-- Witness for C5 (amended): a status-and-version update stamps the row
with the new time, while the packaging UPDATE on the same store leaves the
timestamps exactly as they were. -/
theorem C5_amended_timestamps_witness :
    (∃ r' ∈ (update_app_status 1 "analyzed" (some 2) 42 dbC5).apps,
      r'.id = rowC5.id ∧ r'.status = "analyzed" ∧ r'.last_updated = 42) ∧
    dbC5after.apps.map (fun r => r.last_updated) =
      dbC5.apps.map (fun r => r.last_updated) := by
  have h := C5_amended_timestamps 1 "analyzed" (some 2) 42 dbC5
  constructor
  · refine h.1 rowC5 ?_ rfl
    rw [show dbC5.apps = [rowC5] from rfl]
    exact List.mem_singleton.mpr rfl
  · exact h.2 treeA "out" "tmp" 1 1 "app" _ _
      (package_application_ok 1 1 "app" treeA "out" "tmp" dbC5)

/-- C6 — Packaging postconditions: on an existing source tree the packager
succeeds, the archive is named `{app}_v{version}.tar.gz`, opened in gzip
mode `w:gz`, built from the staged copy `{temp}/{app}` (never the live
source path), stored under arcname `{app}` so extraction yields the single
top-level directory `{app}` with the staged tree, placed at
`{output}/{name}`, and the archive path is written back to the row together
with the `packaged` status. -/
theorem C6_packaging_postconditions (i v : Nat) (an : String) (t : FSTree)
    (od td : String) (db : DB) :
    ∃ ar db',
      package_application i v an (some t) od td true db = .ok (ar, db') ∧
      ar.name = an ++ "_v" ++ toString v ++ ".tar.gz" ∧
      ar.mode = "w:gz" ∧
      ar.added_path = td ++ "/" ++ an ∧
      ar.arcname = an ∧
      ar.contents = t ∧
      ar.extract = [(an, t)] ∧
      ar.archive_path = od ++ "/" ++ ar.name ∧
      (∀ r ∈ db.apps, r.id = i →
        { r with package_path := some ar.archive_path,
                 status := "packaged" } ∈ db'.apps) := by
  refine ⟨_, _, package_application_ok i v an t od td db,
    rfl, rfl, rfl, rfl, rfl, rfl, rfl, ?_⟩
  intro r hr hid
  exact List.mem_map.mpr ⟨r, hr, by simp [hid, archivePath, archiveName]⟩

/-- Witness for C6: packaging `foo` version 2 from `treeA`. -/
theorem C6_packaging_postconditions_witness :
    ∃ ar db',
      package_application 1 2 "foo" (some treeA) "out" "tmp" true dbDemo1 =
        .ok (ar, db') ∧
      ar.name = "foo_v2.tar.gz" ∧
      ar.extract = [("foo", treeA)] ∧
      { rowDemo1 with
        package_path := some ar.archive_path,
        status := "packaged" } ∈ db'.apps := by
  obtain ⟨ar, db', hpkg, hname, _, _, _, _, hext, _, hmem⟩ :=
    C6_packaging_postconditions 1 2 "foo" treeA "out" "tmp" dbDemo1
  refine ⟨ar, db', hpkg, by rw [hname]; rfl, hext, ?_⟩
  refine hmem rowDemo1 ?_ rfl
  rw [show dbDemo1.apps = [rowDemo1] from rfl]
  exact List.mem_singleton.mpr rfl

/-- C4 (amended) — No error isolation: `main` wraps `process_application`
in no `try`/`except`, so a per-application failure (such as the source
directory being gone at packaging time) propagates out of the loop: the run
ends with that error and none of the remaining applications is processed. -/
theorem C4_amended_error_aborts_run (env : Env) (name : String)
    (src : Option FSTree) (disk : Bool)
    (rest : List (String × Option FSTree × Bool)) (db : DB) (e : PyError)
    (h : (process_application env name src disk db).err = some e) :
    run_apps env ((name, src, disk) :: rest) db =
      { db := (process_application env name src disk db).db,
        archives := (process_application env name src disk db).archives,
        plans := (process_application env name src disk db).plans,
        err := some e } := by
  unfold run_apps
  dsimp only
  rw [h]

/-- Counterexample for C4 as stated: with `alpha`'s source directory
missing and a healthy `beta` next in line, the whole run aborts with
`alpha`'s FileNotFoundError; `beta` is never processed — it does not even
get a row — and no archive is produced. -/
theorem C4_counterexample :
    (run_apps envDemo [("alpha", none, true), ("beta", some treeA, true)]
      dbEmpty).err = some PyError.fileNotFound ∧
    findApp "beta" (run_apps envDemo
      [("alpha", none, true), ("beta", some treeA, true)] dbEmpty).db = none ∧
    (run_apps envDemo [("alpha", none, true), ("beta", some treeA, true)]
      dbEmpty).archives = [] :=
  ⟨rfl, rfl, rfl⟩

/-- Witness for C4 (amended): the failing first application ends the loop
with its error and its partial effects only. -/
theorem C4_amended_error_aborts_run_witness :
    run_apps envDemo [("alpha", none, true), ("beta", some treeA, true)]
        dbEmpty =
      { db := (process_application envDemo "alpha" none true dbEmpty).db,
        archives := (process_application envDemo "alpha" none true dbEmpty).archives,
        plans := (process_application envDemo "alpha" none true dbEmpty).plans,
        err := some PyError.fileNotFound } :=
  C4_amended_error_aborts_run envDemo "alpha" none true
    [("beta", some treeA, true)] dbEmpty PyError.fileNotFound (by rfl)
